import Mathlib

/-!
# drone-gcs: file selection, target keys and the upload sequence

A shallow embedding of `plugin.go`.  Go strings are byte sequences; a byte is
a natural number here, so every statement quantified over `GoString` covers
every Go string.  The functions of the Go standard library that the plugin
calls (`strings.HasPrefix`, `strings.TrimPrefix`, `strings.Join`,
`filepath.Clean`, `filepath.Join`, `filepath.Ext`) are transcribed from their
Unix sources.  The glob expansion, `os.Stat` and the MIME table are given
functions.  Every other operation on the environment (credentials, client,
local open, remote writer, ACL, attributes) is an entry of a trace, and the
error it returns is given by the environment as a function of the trace so
far; `uploadFile` and `Exec` return the entries they add and their error.
-/

set_option autoImplicit false

namespace DroneGcs

/-! ## Strings -/

/-- A Go string: a sequence of bytes. -/
abbrev GoString := List Nat

/-- The bytes of an ASCII literal. -/
def bytes (s : String) : GoString := s.toList.map Char.toNat

/-- A Go `error` value (non-nil), identified by its message. -/
abbrev GoError := String

/-- The byte of `filepath.Separator` on Unix, the character `/`. -/
def Separator : Nat := 47

/-- The byte of the character `.`. -/
def Dot : Nat := 46

/-- Go `os.IsPathSeparator` on Unix. -/
def IsPathSeparator (c : Nat) : Bool := c == Separator

/-- Go `strings.HasPrefix`: `len(s) >= len(prefix) && s[:len(prefix)] == prefix`. -/
def HasPrefix (s pre : GoString) : Bool :=
  decide (s.length ≥ pre.length) && (s.take pre.length == pre)

/-- Go `strings.TrimPrefix`: `s[len(prefix):]` when `HasPrefix(s, prefix)`,
otherwise `s`. -/
def TrimPrefix (s pre : GoString) : GoString :=
  if HasPrefix s pre then s.drop pre.length else s

/-- Go `strings.Join(elems, sep)`. -/
def stringsJoin (sep : GoString) : List GoString → GoString
  | [] => []
  | [e] => e
  | e :: es => e ++ sep ++ stringsJoin sep es

/-! ## Paths (`path/filepath`, Unix) -/

/-- The backtracking loop of the `..` case of `Clean`, entered after `out.w--`:
`for out.w > dotdot && !os.IsPathSeparator(out.index(out.w)) { out.w-- }`.
The argument is `out.w`, the result the final `out.w`. -/
def backtrack (out : List Nat) (dotdot : Nat) : Nat → Nat
  | 0 => 0
  | w + 1 =>
    if dotdot < w + 1 ∧ IsPathSeparator (out.getD (w + 1) 0) = false then
      backtrack out dotdot w
    else w + 1

/-- The variables of the main loop of `Clean`: the read index `r`, the content
of the output buffer `out` (`out.w` is its length) and `dotdot`, the index in
the buffer where `..` must stop. -/
structure CleanState where
  r : Nat
  out : List Nat
  dotdot : Nat

/-- One iteration of the main loop of `Clean`, entered with `r < n`.  The
copy loop of a real path element, `for ; r < n && !os.IsPathSeparator(path[r]);
r++ { out.append(path[r]) }`, appends the longest run without separator that
starts at `r` and moves `r` behind it. -/
def cleanStep (path : GoString) (rooted : Bool) (s : CleanState) : CleanState :=
  if IsPathSeparator (path.getD s.r 0) then
    -- empty path element
    { s with r := s.r + 1 }
  else if path.getD s.r 0 = Dot ∧
      (s.r + 1 = path.length ∨ IsPathSeparator (path.getD (s.r + 1) 0)) then
    -- . element
    { s with r := s.r + 1 }
  else if path.getD s.r 0 = Dot ∧ path.getD (s.r + 1) 0 = Dot ∧
      (s.r + 2 = path.length ∨ IsPathSeparator (path.getD (s.r + 2) 0)) then
    -- .. element: remove to last separator
    if s.dotdot < s.out.length then
      -- can backtrack
      { s with r := s.r + 2,
               out := s.out.take (backtrack s.out s.dotdot (s.out.length - 1)) }
    else if rooted = false then
      -- cannot backtrack, but not rooted, so append .. element
      let out1 := if 0 < s.out.length then s.out ++ [Separator] else s.out
      let out2 := out1 ++ [Dot, Dot]
      { r := s.r + 2, out := out2, dotdot := out2.length }
    else
      { s with r := s.r + 2 }
  else
    -- real path element: add slash if needed, copy element
    let out1 :=
      if (rooted ∧ s.out.length ≠ 1) ∨ (rooted = false ∧ s.out.length ≠ 0) then
        s.out ++ [Separator]
      else s.out
    let elem := (path.drop s.r).takeWhile (fun c => !IsPathSeparator c)
    { s with r := s.r + elem.length, out := out1 ++ elem }

/-- The main loop `for r < n` of `Clean`.  Every iteration advances `r`, so
the first argument, a bound on the number of iterations, is never exhausted
when it is at least `n - r` (`cleanLoop_isSome`); `none` marks an exhausted
bound. -/
def cleanLoop (path : GoString) (rooted : Bool) : Nat → CleanState → Option (List Nat)
  | 0, s => if s.r < path.length then none else some s.out
  | bound + 1, s =>
    if s.r < path.length then cleanLoop path rooted bound (cleanStep path rooted s)
    else some s.out

/-- Go `filepath.Clean` up to the end of its main loop, for a non-empty path
(there is no volume name on Unix). -/
def cleanRun (path : GoString) : Option (List Nat) :=
  let rooted := IsPathSeparator (path.getD 0 0)
  if rooted then cleanLoop path rooted path.length { r := 1, out := [Separator], dotdot := 1 }
  else cleanLoop path rooted path.length { r := 0, out := [], dotdot := 0 }

/-- Go `filepath.Clean` on Unix: the empty path gives `.`, and so does an
empty output buffer.  The loop bound is never exhausted (`cleanRun_isSome`). -/
def Clean (path : GoString) : GoString :=
  if path = [] then [Dot]
  else
    match cleanRun path with
    | some out => if out.length = 0 then [Dot] else out
    | none => []

/-- Go `filepath.Join` on Unix: the elements from the first non-empty one on,
joined by the separator and cleaned; the empty string when all are empty. -/
def Join : List GoString → GoString
  | [] => []
  | e :: es => if e ≠ [] then Clean (stringsJoin [Separator] (e :: es)) else Join es

/-- The loop of Go `filepath.Ext`, `for i := len(path) - 1; i >= 0 &&
!os.IsPathSeparator(path[i]); i--`, with the argument `i + 1`. -/
def extLoop (path : GoString) : Nat → GoString
  | 0 => []
  | i + 1 =>
    if IsPathSeparator (path.getD i 0) then []
    else if path.getD i 0 = Dot then path.drop i
    else extLoop path i

/-- Go `filepath.Ext`: the suffix beginning at the final dot of the final
element of the path, empty if there is no dot. -/
def Ext (path : GoString) : GoString := extLoop path path.length

/-- The list does not begin with the separator. -/
def NoLead (l : List Nat) : Prop := l.head? ≠ some Separator

/-- The invariant of the output buffer of `Clean`: for a rooted path one
separator followed by something that does not begin with a separator, for
another path something that does not begin with a separator. -/
def CleanInv (rooted : Bool) (s : CleanState) : Prop :=
  if rooted then 1 ≤ s.dotdot ∧ ∃ rest, s.out = Separator :: rest ∧ NoLead rest
  else NoLead s.out

/-! ## Content classifier and target resolver -/

/-- Go `contentType(path)`, with `mime.TypeByExtension` the parameter `mime`. -/
def contentType (mime : GoString → GoString) (path : GoString) : GoString :=
  let ext := Ext path
  let typ := mime ext
  if typ = [] then bytes "application/octet-stream" else typ

/-- The first statement of `Exec`: `if strings.HasPrefix(p.Target, "/")
{ p.Target = p.Target[1:] }`. -/
def normalizeTarget (target : GoString) : GoString :=
  if HasPrefix target [Separator] then target.drop 1 else target

/-- The target key of a match in the loop of `Exec`: `strings.TrimPrefix(
filepath.Join(p.Target, strings.TrimPrefix(match, p.StripPrefix)), "/")`,
for the already normalized `p.Target`. -/
def targetKey (target stripPrefix m : GoString) : GoString :=
  TrimPrefix (Join [target, TrimPrefix m stripPrefix]) [Separator]

/-! ## Matcher -/

/-- The loop `for _, match := range excludes { excludem[match] = true }`:
the key set of the map `excludem` is kept as the list of inserted keys. -/
def insertAll (excludem : List GoString) : List GoString → List GoString
  | [] => excludem
  | m :: ms => insertAll (m :: excludem) ms

/-- The loop of `matches` over the exclude patterns, which returns the first
glob error it meets. -/
def excludeLoop (glob : GoString → Except GoError (List GoString)) :
    List GoString → List GoString → Except GoError (List GoString)
  | [], excludem => .ok excludem
  | pattern :: rest, excludem =>
    match glob pattern with
    | .error err => .error err
    | .ok excludes => excludeLoop glob rest (insertAll excludem excludes)

/-- The final loop of `matches`: keep, in order, the paths that are not a key
of `excludem`. -/
def includedLoop (excludem : List GoString) : List GoString → List GoString
  | [] => []
  | m :: ms =>
    if m ∈ excludem then includedLoop excludem ms
    else m :: includedLoop excludem ms

/-- Go `matches(include, exclude)`, with `zglob.Glob` the parameter `glob`. -/
def «matches» (glob : GoString → Except GoError (List GoString))
    (incl : GoString) (exclude : List GoString) : Except GoError (List GoString) :=
  match glob incl with
  | .error err => .error err
  | .ok ms =>
    if exclude.length = 0 then .ok ms
    else
      match excludeLoop glob exclude [] with
      | .error err => .error err
      | .ok excludem => .ok (includedLoop excludem ms)

/-! ## Plugin, remote store and effects -/

/-- Go `Plugin`: the parameters of a run. -/
structure Plugin where
  Credentials : GoString
  Bucket : GoString
  Access : GoString
  Source : GoString
  Target : GoString
  StripPrefix : GoString
  Exclude : List GoString
  DryRun : Bool
  Compress : Bool
  CacheControl : GoString
deriving DecidableEq

/-- The fields of `storage.ObjectAttrsToUpdate` that the plugin writes; `none`
is a field left unset. -/
structure ObjectAttrsToUpdate where
  ContentType : Option GoString
  ContentEncoding : Option GoString
  CacheControl : Option GoString
deriving DecidableEq

/-- A value of a log field. -/
inductive LogValue where
  | str (s : GoString)
  | bool (b : Bool)
  | err (e : GoError)
deriving DecidableEq

/-- The operations a run performs on its environment. -/
inductive Op where
  /-- `google.JWTConfigFromJSON(p.Credentials, ...)` -/
  | jwtConfig (credentials : GoString)
  /-- `storage.NewClient` -/
  | newClient
  /-- deferred `gcc.Close()` -/
  | clientClose
  /-- a log line: level, message, fields -/
  | log (level msg : String) (fields : List (String × LogValue))
  /-- `os.Stat(match)` -/
  | stat (name : GoString)
  /-- `os.Open(match)` -/
  | osOpen (name : GoString)
  /-- deferred `f.Close()` -/
  | fileClose (name : GoString)
  /-- `bkt.Object(target).NewWriter(ctx)` -/
  | newWriter (target : GoString)
  /-- `io.Copy` of the opened file into the writer, or into the gzip writer
  around it when `gzip` is set -/
  | copy (name target : GoString) (gzip : Bool)
  /-- `gw.Close()` -/
  | gzipClose (target : GoString)
  /-- `w.Close()`, which commits the object -/
  | writerClose (target : GoString)
  /-- `obj.ACL().Set(ctx, storage.AllUsers, storage.RoleReader)` -/
  | aclSet (target : GoString)
  /-- `obj.Update(ctx, attrs)` -/
  | update (target : GoString) (attrs : ObjectAttrsToUpdate)
deriving DecidableEq

/-- One entry of the trace of a run: an operation and the error it returned,
`none` for success. -/
structure Entry where
  op : Op
  err : Option GoError
deriving DecidableEq

/-- The environment of a run: the glob expansion, the MIME table, `os.Stat`
followed by `IsDir` (all given functions), and for every other fallible
operation the error it returns after the trace so far. -/
structure World where
  glob : GoString → Except GoError (List GoString)
  mime : GoString → GoString
  stat : GoString → Except GoError Bool
  failure : List Entry → Op → Option GoError

/-- Put the entry `e` in front of the entries of the result `res`. -/
def prepend (e : Entry) (res : List Entry × Option GoError) : List Entry × Option GoError :=
  (e :: res.1, res.2)

/-- An operation whose error the caller returns: `if err := op; err != nil
{ return err }`, then the rest `k`.  The result is the list of entries added
to the trace `tr` and the error returned. -/
def attempt (w : World) (tr : List Entry) (op : Op)
    (k : List Entry → List Entry × Option GoError) : List Entry × Option GoError :=
  match w.failure tr op with
  | some err => ([⟨op, some err⟩], some err)
  | none => prepend ⟨op, none⟩ (k (tr ++ [⟨op, none⟩]))

/-- An operation that returns no error (a log line, `NewWriter`), then the
rest `k`. -/
def emit (tr : List Entry) (op : Op)
    (k : List Entry → List Entry × Option GoError) : List Entry × Option GoError :=
  prepend ⟨op, none⟩ (k (tr ++ [⟨op, none⟩]))

/-- A deferred call: `op` runs when `body` has returned, and its error is
dropped. -/
def deferred (w : World) (tr : List Entry) (op : Op)
    (body : List Entry × Option GoError) : List Entry × Option GoError :=
  (body.1 ++ [⟨op, w.failure (tr ++ body.1) op⟩], body.2)

/-- The attributes `uploadFile` passes to `obj.Update`. -/
def Plugin.attrs (p : Plugin) (content : GoString) : ObjectAttrsToUpdate :=
  let attrs : ObjectAttrsToUpdate :=
    { ContentType := some content, ContentEncoding := none, CacheControl := none }
  let attrs := if p.Compress then { attrs with ContentEncoding := some (bytes "gzip") } else attrs
  if p.CacheControl ≠ [] then { attrs with CacheControl := some p.CacheControl } else attrs

/-- The log line `Uploading file` of `uploadFile`. -/
def Plugin.logUploading (p : Plugin) (name target content : GoString) : Op :=
  .log "info" "Uploading file"
    [("name", .str name), ("bucket", .str p.Bucket), ("target", .str target),
     ("content-type", .str content), ("compress", .bool p.Compress)]

/-- The fields of the log lines `Uploaded file` and `Updated Attributes`. -/
def Plugin.logFields (p : Plugin) (name target content : GoString) :
    List (String × LogValue) :=
  [("name", .str name), ("bucket", .str p.Bucket), ("target", .str target),
   ("content-type", .str content), ("compress", .bool p.Compress),
   ("cache-control", .str p.CacheControl)]

/-- Go `(*Plugin).uploadFile(ctx, bkt, match, target)` after the trace `tr`. -/
def Plugin.uploadFile (p : Plugin) (w : World) (tr : List Entry)
    (name target : GoString) : List Entry × Option GoError :=
  let content := contentType w.mime name
  emit tr (p.logUploading name target content) fun tr =>
  if p.DryRun then ([], none)
  else
    match w.failure tr (.osOpen name) with
    | some err =>
      ([⟨.osOpen name, some err⟩,
        ⟨.log "error" "Problem opening file" [("error", .err err), ("file", .str name)],
          none⟩], some err)
    | none =>
      emit tr (.osOpen name) fun tr =>
      deferred w tr (.fileClose name) <|
      emit tr (.newWriter target) fun tr =>
      (if p.Compress then
        fun k => attempt w tr (.copy name target true) fun tr =>
          attempt w tr (.gzipClose target) k
      else
        fun k => attempt w tr (.copy name target false) k) fun tr =>
      attempt w tr (.writerClose target) fun tr =>
      emit tr (.log "info" "Uploaded file" (p.logFields name target content)) fun tr =>
      (if p.Access = bytes "public" then
        fun k => attempt w tr (.aclSet target) k
      else
        fun k => k tr) fun tr =>
      attempt w tr (.update target (p.attrs content)) fun tr =>
      emit tr (.log "info" "Updated Attributes" (p.logFields name target content)) fun _ =>
      ([], none)

/-- The plugin after the first statement of `Exec`, which replaces `p.Target`
by its normalized form. -/
def Plugin.normalize (p : Plugin) : Plugin :=
  { p with Target := normalizeTarget p.Target }

/-- The log line `Attempting to upload` of `Exec`. -/
def Plugin.logAttempting (p : Plugin) : Op :=
  .log "info" "Attempting to upload" [("bucket", .str p.Bucket)]

/-- The log line `Could not upload file` of `Exec`. -/
def Plugin.logCouldNotUpload (p : Plugin) (name target : GoString) (err : GoError) : Op :=
  .log "error" "Could not upload file"
    [("name", .str name), ("bucket", .str p.Bucket), ("target", .str target),
     ("error", .err err)]

/-- The loop `for _, match := range matches` of `Exec` after the trace `tr`,
for the plugin with its target already normalized. -/
def Plugin.execLoop (p : Plugin) (w : World) :
    List Entry → List GoString → List Entry × Option GoError
  | _, [] => ([], none)
  | tr, m :: ms =>
    match w.stat m with
    | .error err =>
      -- continue // should never happen
      prepend ⟨.stat m, some err⟩ (p.execLoop w (tr ++ [⟨.stat m, some err⟩]) ms)
    | .ok true =>
      -- skip directories
      prepend ⟨.stat m, none⟩ (p.execLoop w (tr ++ [⟨.stat m, none⟩]) ms)
    | .ok false =>
      let target := targetKey p.Target p.StripPrefix m
      let up := p.uploadFile w (tr ++ [⟨.stat m, none⟩]) m target
      match up.2 with
      | some err =>
        (⟨.stat m, none⟩ :: up.1 ++ [⟨p.logCouldNotUpload m target err, none⟩], some err)
      | none =>
        ((⟨.stat m, none⟩ :: up.1) ++
            (p.execLoop w (tr ++ ⟨.stat m, none⟩ :: up.1) ms).1,
          (p.execLoop w (tr ++ ⟨.stat m, none⟩ :: up.1) ms).2)

/-- Go `(*Plugin).Exec()`: the trace of the run and the error returned. -/
def Plugin.Exec (p : Plugin) (w : World) : List Entry × Option GoError :=
  -- normalize the target URL
  let p := p.normalize
  attempt w [] (.jwtConfig p.Credentials) fun tr =>
  attempt w tr .newClient fun tr =>
  deferred w tr .clientClose <|
  emit tr p.logAttempting fun tr =>
  match «matches» w.glob p.Source p.Exclude with
  | .error err =>
    ([⟨.log "error" "Could not match files" [("error", .err err)], none⟩], some err)
  | .ok ms => p.execLoop w tr ms

/-- The operations of a transfer: opening the local file and everything done
on the remote object. -/
def Op.isTransfer : Op → Bool
  | .osOpen _ => true
  | .newWriter _ => true
  | .copy _ _ _ => true
  | .gzipClose _ => true
  | .writerClose _ => true
  | .aclSet _ => true
  | .update _ _ => true
  | _ => false

/-- The metadata operations: the ACL grant and the attribute update. -/
def Op.isMetadata : Op → Bool
  | .aclSet _ => true
  | .update _ _ => true
  | _ => false

/-- An entry of a successful operation. -/
def ok (op : Op) : Entry := ⟨op, none⟩

/-- The entries of the body phase up to the close of the gzip writer, all
successful. -/
def bodyOk (p : Plugin) (name target : GoString) : List Entry :=
  ok (.newWriter target) :: ok (.copy name target p.Compress) ::
    (if p.Compress then [ok (.gzipClose target)] else [])

/-- The entries of a committed object: the body phase, the close of the
writer and the log line, all successful. -/
def committedOk (p : Plugin) (w : World) (name target : GoString) : List Entry :=
  bodyOk p name target ++
    [ok (.writerClose target),
     ok (.log "info" "Uploaded file" (p.logFields name target (contentType w.mime name)))]

/-- The entry of a successful ACL grant, when the access is public. -/
def aclOk (p : Plugin) (target : GoString) : List Entry :=
  if p.Access = bytes "public" then [ok (.aclSet target)] else []

/-- The possible outcomes of `uploadFile` between the successful `os.Open` and
the deferred `f.Close()`: the entries added and the error returned. -/
inductive TransferShape (p : Plugin) (w : World) (name target : GoString) :
    List Entry → Option GoError → Prop where
  | copyFails (e : GoError) :
    TransferShape p w name target
      [ok (.newWriter target), ⟨.copy name target p.Compress, some e⟩] (some e)
  | gzipCloseFails (e : GoError) (h : p.Compress = true) :
    TransferShape p w name target
      [ok (.newWriter target), ok (.copy name target p.Compress),
        ⟨.gzipClose target, some e⟩] (some e)
  | writerCloseFails (e : GoError) :
    TransferShape p w name target
      (bodyOk p name target ++ [⟨.writerClose target, some e⟩]) (some e)
  | aclFails (e : GoError) (h : p.Access = bytes "public") :
    TransferShape p w name target
      (committedOk p w name target ++ [⟨.aclSet target, some e⟩]) (some e)
  | updateFails (e : GoError) :
    TransferShape p w name target
      (committedOk p w name target ++ aclOk p target ++
        [⟨.update target (p.attrs (contentType w.mime name)), some e⟩]) (some e)
  | done :
    TransferShape p w name target
      (committedOk p w name target ++ aclOk p target ++
        [ok (.update target (p.attrs (contentType w.mime name))),
         ok (.log "info" "Updated Attributes"
           (p.logFields name target (contentType w.mime name)))]) none

/-- The possible outcomes of `uploadFile`. -/
inductive UploadShape (p : Plugin) (w : World) (name target : GoString) :
    List Entry → Option GoError → Prop where
  | dryRun (h : p.DryRun = true) :
    UploadShape p w name target
      [ok (p.logUploading name target (contentType w.mime name))] none
  | openFails (h : p.DryRun = false) (e : GoError) :
    UploadShape p w name target
      [ok (p.logUploading name target (contentType w.mime name)),
       ⟨.osOpen name, some e⟩,
       ok (.log "error" "Problem opening file" [("error", .err e), ("file", .str name)])]
      (some e)
  | opened (h : p.DryRun = false) (inner : List Entry) (r c : Option GoError)
      (hinner : TransferShape p w name target inner r) :
    UploadShape p w name target
      (ok (p.logUploading name target (contentType w.mime name)) :: ok (.osOpen name) ::
        inner ++ [⟨.fileClose name, c⟩]) r

/-- The successful copy, close of the gzip writer when compressing, and close
of the writer of an object, in the order of the source. -/
def commitOk (p : Plugin) (name target : GoString) : List Entry :=
  ok (.copy name target p.Compress) ::
    ((if p.Compress then [ok (.gzipClose target)] else []) ++ [ok (.writerClose target)])

/-- The operations of the body phase, the open of the local file included. -/
def Op.isBody : Op → Bool
  | .osOpen _ => true
  | .copy _ _ _ => true
  | .gzipClose _ => true
  | .writerClose _ => true
  | _ => false

/-- A file system for the example of the specification: `build/**` expands to
three paths and `build/**/*.map` to one of them. -/
def demoGlob (pattern : GoString) : Except GoError (List GoString) :=
  if pattern = bytes "build/**" then
    .ok [bytes "build/app.js", bytes "build/app.js.map", bytes "build/img/logo.png"]
  else if pattern = bytes "build/**/*.map" then .ok [bytes "build/app.js.map"]
  else .error "syntax error in pattern"

/-- A glob whose expansion of every pattern lists the path `a` twice. -/
def dupGlob (_pattern : GoString) : Except GoError (List GoString) :=
  .ok [bytes "a", bytes "a"]

/-- A MIME table for the examples. -/
def demoMime (ext : GoString) : GoString :=
  if ext = bytes ".html" then bytes "text/html; charset=utf-8"
  else if ext = bytes ".json" then bytes "application/json"
  else []

/-- The file `name` has been processed in the trace: its `Uploading file` line
with target key and content type is there and, unless the run is a dry run, so
are its successful copy, closes and attribute update. -/
def Plugin.Processed (p : Plugin) (w : World) (name : GoString) (d : List Entry) : Prop :=
  ok (p.logUploading name (targetKey p.Target p.StripPrefix name)
      (contentType w.mime name)) ∈ d ∧
    (p.DryRun = false →
      commitOk p name (targetKey p.Target p.StripPrefix name) <:+: d ∧
      ok (.update (targetKey p.Target p.StripPrefix name)
        (p.attrs (contentType w.mime name))) ∈ d)

/-- The entries of `Exec` before it expands the patterns, when the
credentials are accepted and the client is created. -/
def Plugin.preamble (p : Plugin) : List Entry :=
  [ok (.jwtConfig p.Credentials), ok .newClient, ok p.logAttempting]

/-- The possible outcomes of `Exec`. -/
inductive ExecShape (p : Plugin) (w : World) : List Entry → Option GoError → Prop where
  | configFails (e : GoError) :
    ExecShape p w [⟨.jwtConfig p.Credentials, some e⟩] (some e)
  | clientFails (e : GoError) :
    ExecShape p w [ok (.jwtConfig p.Credentials), ⟨.newClient, some e⟩] (some e)
  | matchFails (e : GoError) (c : Option GoError)
      (h : «matches» w.glob p.Source p.Exclude = .error e) :
    ExecShape p w
      (p.preamble ++ [ok (.log "error" "Could not match files" [("error", .err e)]),
        ⟨.clientClose, c⟩]) (some e)
  | looped (ms : List GoString) (c : Option GoError)
      (h : «matches» w.glob p.Source p.Exclude = .ok ms) :
    ExecShape p w
      (p.preamble ++ (p.normalize.execLoop w p.preamble ms).1 ++ [⟨.clientClose, c⟩])
      (p.normalize.execLoop w p.preamble ms).2

/-- A plugin for the examples: target `/releases/v1`, strip-prefix `build/`,
no exclude pattern, public access, compression. -/
def demoPlugin : Plugin :=
  { Credentials := bytes "{}", Bucket := bytes "site", Access := bytes "public",
    Source := bytes "build/**", Target := bytes "/releases/v1", StripPrefix := bytes "build/",
    Exclude := [], DryRun := false, Compress := true, CacheControl := bytes "max-age=60" }

/-- A world in which every matched path is a file and every operation
succeeds. -/
def demoWorld : World :=
  { glob := demoGlob, mime := demoMime, stat := fun _ => .ok false,
    failure := fun _ _ => none }

/-- A world in which the copy of the second matched file fails. -/
def abortWorld : World :=
  { demoWorld with
    failure := fun _ op =>
      if op = .copy (bytes "build/app.js.map") (bytes "releases/v1/app.js.map") true then
        some "write failed"
      else none }

/-- A world in which `os.Stat` fails on every matched path. -/
def statFailsWorld : World :=
  { demoWorld with stat := fun _ => .error "no such file or directory" }

/-! ## Theorems -/

/-! ### Paths -/

theorem isPathSeparator_eq_false (c : Nat) : IsPathSeparator c = false ↔ c ≠ Separator := by
  simp [IsPathSeparator]

theorem drop_eq_getD_cons (path : GoString) (r : Nat) (h : r < path.length) :
    path.drop r = path.getD r 0 :: path.drop (r + 1) := by
  rw [List.drop_eq_getElem_cons h]
  congr 1
  simp [List.getD_eq_getElem?_getD, List.getElem?_eq_getElem h]

theorem elem_cons (path : GoString) (r : Nat) (h : r < path.length)
    (hc : IsPathSeparator (path.getD r 0) = false) :
    ∃ t, (path.drop r).takeWhile (fun c => !IsPathSeparator c) = path.getD r 0 :: t := by
  rw [drop_eq_getD_cons path r h, List.takeWhile_cons]
  exact ⟨_, by rw [hc]; rfl⟩

theorem cleanStep_r_lt (path : GoString) (rooted : Bool) (s : CleanState)
    (h : s.r < path.length) : s.r < (cleanStep path rooted s).r := by
  unfold cleanStep
  by_cases h1 : IsPathSeparator (path.getD s.r 0) = true
  · rw [if_pos h1]
    exact Nat.lt_succ_self _
  · obtain ⟨t, ht⟩ := elem_cons path s.r h (by simpa using h1)
    simp only [ht]
    split_ifs <;> simp

theorem cleanLoop_isSome (path : GoString) (rooted : Bool) (bound : Nat)
    (s : CleanState) (h : path.length - s.r ≤ bound) :
    (cleanLoop path rooted bound s).isSome = true := by
  induction bound generalizing s with
  | zero =>
    have : ¬ s.r < path.length := by omega
    simp [cleanLoop, this]
  | succ bound ih =>
    unfold cleanLoop
    by_cases hr : s.r < path.length
    · simp only [hr, if_true]
      have := cleanStep_r_lt path rooted s hr
      exact ih _ (by omega)
    · simp [hr]

theorem cleanRun_isSome (path : GoString) : (cleanRun path).isSome = true := by
  unfold cleanRun
  dsimp only
  split_ifs
  · exact cleanLoop_isSome _ _ _ _ (by simp)
  · exact cleanLoop_isSome _ _ _ _ (by simp)


theorem noLead_take (l : List Nat) (k : Nat) (h : NoLead l) : NoLead (l.take k) := by
  cases l with
  | nil => simpa using h
  | cons a t =>
    cases k with
    | zero => simp [NoLead]
    | succ k => simpa [NoLead] using h

theorem noLead_append (l x : List Nat) (h : NoLead l) (hx : l = [] → NoLead x) :
    NoLead (l ++ x) := by
  cases l with
  | nil => simpa using hx rfl
  | cons a t => simpa [NoLead] using h

theorem backtrack_ge (out : List Nat) (dotdot w : Nat) (h : dotdot ≤ w) :
    dotdot ≤ backtrack out dotdot w := by
  induction w with
  | zero => simpa [backtrack] using h
  | succ w ih =>
    unfold backtrack
    split_ifs with hc
    · exact ih (by omega)
    · exact h

theorem cleanStep_inv (path : GoString) (rooted : Bool) (s : CleanState)
    (hr : s.r < path.length) (hinv : CleanInv rooted s) :
    CleanInv rooted (cleanStep path rooted s) := by
  unfold cleanStep
  by_cases h1 : IsPathSeparator (path.getD s.r 0) = true
  · rw [if_pos h1]; exact hinv
  rw [if_neg h1]
  by_cases h2 : path.getD s.r 0 = Dot ∧
      (s.r + 1 = path.length ∨ IsPathSeparator (path.getD (s.r + 1) 0))
  · rw [if_pos h2]; exact hinv
  rw [if_neg h2]
  by_cases h3 : path.getD s.r 0 = Dot ∧ path.getD (s.r + 1) 0 = Dot ∧
      (s.r + 2 = path.length ∨ IsPathSeparator (path.getD (s.r + 2) 0))
  · rw [if_pos h3]
    by_cases h4 : s.dotdot < s.out.length
    · -- backtrack
      rw [if_pos h4]
      cases rooted with
      | false => exact noLead_take _ _ hinv
      | true =>
        obtain ⟨hdd, rest, hout, hrest⟩ := hinv
        refine ⟨hdd, ?_⟩
        have hge : 1 ≤ backtrack s.out s.dotdot (s.out.length - 1) :=
          le_trans hdd (backtrack_ge _ _ _ (by omega))
        obtain ⟨k, hk⟩ : ∃ k, backtrack s.out s.dotdot (s.out.length - 1) = k + 1 :=
          ⟨_, (Nat.sub_add_cancel hge).symm⟩
        refine ⟨rest.take k, ?_, noLead_take _ _ hrest⟩
        show List.take _ s.out = _
        rw [hk, hout, List.take_succ_cons]
    · rw [if_neg h4]
      cases rooted with
      | true => exact hinv
      | false =>
        -- append ..
        rw [if_pos rfl]
        have hinv : NoLead s.out := hinv
        show NoLead ((if 0 < s.out.length then s.out ++ [Separator] else s.out) ++ [Dot, Dot])
        by_cases h0 : 0 < s.out.length
        · rw [if_pos h0, List.append_assoc]
          exact noLead_append _ _ hinv (fun he => by simp [he] at h0)
        · rw [if_neg h0]
          exact noLead_append _ _ hinv (fun _ => by simp [NoLead, Dot, Separator])
  · -- real path element
    rw [if_neg h3]
    obtain ⟨t, ht⟩ := elem_cons path s.r hr (by simpa using h1)
    have hc : path.getD s.r 0 ≠ Separator := (isPathSeparator_eq_false _).1 (by simpa using h1)
    dsimp only
    rw [ht]
    cases rooted with
    | false =>
      have hinv : NoLead s.out := hinv
      show NoLead (_ ++ _)
      by_cases h0 : s.out.length ≠ 0
      · rw [if_pos (Or.inr ⟨rfl, h0⟩), List.append_assoc]
        exact noLead_append _ _ hinv (fun he => by simp [he] at h0)
      · rw [if_neg (by simpa using h0)]
        exact noLead_append _ _ hinv (fun _ => by simpa [NoLead] using hc)
    | true =>
      obtain ⟨hdd, rest, hout, hrest⟩ := hinv
      refine ⟨hdd, ?_⟩
      show ∃ rest, _ ++ _ = _ ∧ _
      by_cases h0 : s.out.length ≠ 1
      · rw [if_pos (Or.inl ⟨rfl, h0⟩), hout]
        refine ⟨rest ++ ([Separator] ++ path.getD s.r 0 :: t), by simp, ?_⟩
        exact noLead_append _ _ hrest (fun he => by simp [hout, he] at h0)
      · rw [if_neg (by simpa using h0), hout]
        refine ⟨rest ++ path.getD s.r 0 :: t, by simp, ?_⟩
        exact noLead_append _ _ hrest (fun _ => by simpa [NoLead] using hc)

theorem cleanLoop_inv (path : GoString) (rooted : Bool) (bound : Nat) (s : CleanState)
    (out : List Nat) (hinv : CleanInv rooted s)
    (h : cleanLoop path rooted bound s = some out) :
    CleanInv rooted { s with out := out } := by
  induction bound generalizing s with
  | zero =>
    unfold cleanLoop at h
    split_ifs at h
    cases h
    exact hinv
  | succ bound ih =>
    unfold cleanLoop at h
    by_cases hr : s.r < path.length
    · rw [if_pos hr] at h
      have := ih _ (cleanStep_inv path rooted s hr hinv) h
      cases rooted with
      | false => exact this
      | true => exact ⟨hinv.1, this.2⟩
    · rw [if_neg hr] at h
      cases h
      exact hinv

theorem hasPrefix_iff (s pre : GoString) : HasPrefix s pre = true ↔ pre <+: s := by
  unfold HasPrefix
  rw [List.prefix_iff_eq_take]
  simp only [Bool.and_eq_true, decide_eq_true_eq, beq_iff_eq]
  constructor
  · rintro ⟨_, h⟩
    exact h.symm
  · intro h
    refine ⟨?_, h.symm⟩
    have := congrArg List.length h
    rw [List.length_take] at this
    omega

theorem trimPrefix_append (pre rest : GoString) : TrimPrefix (pre ++ rest) pre = rest := by
  unfold TrimPrefix
  rw [if_pos ((hasPrefix_iff _ _).2 (List.prefix_append _ _))]
  simp

theorem trimPrefix_unchanged (s pre : GoString) (h : ¬ pre <+: s) :
    TrimPrefix s pre = s := by
  unfold TrimPrefix
  rw [if_neg (fun hp => h ((hasPrefix_iff _ _).1 hp))]

theorem noLead_iff (l : List Nat) : NoLead l ↔ HasPrefix l [Separator] = false := by
  rw [← Bool.not_eq_true, hasPrefix_iff]
  cases l with
  | nil => simp [NoLead]
  | cons a t =>
    simp [NoLead, List.cons_prefix_cons, eq_comm]

theorem trimPrefix_of_noLead (l : List Nat) (h : NoLead l) : TrimPrefix l [Separator] = l := by
  unfold TrimPrefix
  rw [(noLead_iff l).1 h]
  rfl

theorem noLead_trim_clean (path : GoString) : NoLead (TrimPrefix (Clean path) [Separator]) := by
  unfold Clean
  by_cases hp : path = []
  · rw [if_pos hp]
    show ([Dot] : List Nat).head? ≠ some Separator
    decide
  rw [if_neg hp]
  obtain ⟨out, hout⟩ := Option.isSome_iff_exists.1 (cleanRun_isSome path)
  rw [hout]
  dsimp only
  unfold cleanRun at hout
  dsimp only at hout
  by_cases hroot : IsPathSeparator (path.getD 0 0) = true
  · rw [if_pos hroot, hroot] at hout
    have := cleanLoop_inv path true _ _ out ⟨le_refl 1, [], rfl, by simp [NoLead]⟩ hout
    obtain ⟨_, rest, hrest, hno⟩ := this
    have hrest : out = Separator :: rest := hrest
    subst hrest
    rw [if_neg (by simp)]
    have : TrimPrefix (Separator :: rest) [Separator] = rest :=
      trimPrefix_append [Separator] rest
    rw [this]
    exact hno
  · rw [if_neg hroot] at hout
    have hf : IsPathSeparator (path.getD 0 0) = false := by simpa using hroot
    rw [hf] at hout
    have hno : NoLead out := cleanLoop_inv path false _ _ out (by simp [CleanInv, NoLead]) hout
    by_cases h0 : out.length = 0
    · rw [if_pos h0]
      show ([Dot] : List Nat).head? ≠ some Separator
      decide
    · rw [if_neg h0, trimPrefix_of_noLead _ hno]
      exact hno

theorem noLead_trim_join (elems : List GoString) :
    NoLead (TrimPrefix (Join elems) [Separator]) := by
  induction elems with
  | nil =>
    show ([] : List Nat).head? ≠ some Separator
    decide
  | cons e es ih =>
    unfold Join
    split_ifs
    · exact noLead_trim_clean _
    · exact ih


/-! ### Target resolver -/

/-- C3: for every matched path, target prefix and strip-prefix, the loop of
`Clean` finishes within its bound on every path, and the target key computed by
`Exec` does not begin with `/`. -/
theorem targetKey_no_leading_slash (target stripPrefix m : GoString) :
    (∀ path, (cleanRun path).isSome = true) ∧
      HasPrefix (targetKey (normalizeTarget target) stripPrefix m) (bytes "/") = false ∧
      (targetKey (normalizeTarget target) stripPrefix m).head? ≠ some Separator := by
  have h : NoLead (targetKey (normalizeTarget target) stripPrefix m) := noLead_trim_join _
  exact ⟨cleanRun_isSome, (noLead_iff _).1 h, h⟩

/-- A target with two leading separators and a path with a doubled one. -/
theorem targetKey_no_leading_slash_witness :
    HasPrefix (targetKey (normalizeTarget (bytes "//")) (bytes "build/") (bytes "build//x"))
        (bytes "/") = false ∧
      targetKey (normalizeTarget (bytes "//")) (bytes "build/") (bytes "build//x") = bytes "x" :=
  ⟨(targetKey_no_leading_slash (bytes "//") (bytes "build/") (bytes "build//x")).2.1,
    by decide⟩

/-- C4: when the strip-prefix is a prefix of the local path, the target key is
the join of the target prefix and the rest of the path, without one leading
`/`; when it is not a prefix, it is the same join with the whole path. -/
theorem targetKey_strip (target stripPrefix p : GoString) :
    (∀ rest, p = stripPrefix ++ rest →
      targetKey (normalizeTarget target) stripPrefix p =
        TrimPrefix (Join [normalizeTarget target, rest]) (bytes "/")) ∧
    (¬ stripPrefix <+: p →
      targetKey (normalizeTarget target) stripPrefix p =
        TrimPrefix (Join [normalizeTarget target, p]) (bytes "/")) := by
  constructor
  · rintro rest rfl
    unfold targetKey
    rw [trimPrefix_append]
    rfl
  · intro h
    unfold targetKey
    rw [trimPrefix_unchanged _ _ h]
    rfl

/-- The end-to-end example of the specification, target prefix `releases/v1`
and strip-prefix `build/`; a strip-prefix that is not a prefix of the path; and
doubled separators in the target prefix and in the rest of the path. -/
theorem targetKey_strip_witness :
    targetKey (normalizeTarget (bytes "releases/v1")) (bytes "build/") (bytes "build/app.js")
        = bytes "releases/v1/app.js" ∧
      targetKey (normalizeTarget (bytes "releases/v1")) (bytes "build/")
        (bytes "build/img/logo.png") = bytes "releases/v1/img/logo.png" ∧
      targetKey (normalizeTarget (bytes "/releases/v1")) (bytes "dist/") (bytes "build/app.js")
        = bytes "releases/v1/build/app.js" ∧
      targetKey (normalizeTarget (bytes "/releases//v1/")) (bytes "build") (bytes "build//app.js")
        = bytes "releases/v1/app.js" := by
  refine ⟨?_, ?_, ?_, ?_⟩
  · rw [(targetKey_strip (bytes "releases/v1") (bytes "build/") (bytes "build/app.js")).1
      (bytes "app.js") (by decide)]
    decide
  · rw [(targetKey_strip (bytes "releases/v1") (bytes "build/") (bytes "build/img/logo.png")).1
      (bytes "img/logo.png") (by decide)]
    decide
  · rw [(targetKey_strip (bytes "/releases/v1") (bytes "dist/") (bytes "build/app.js")).2
      (by decide)]
    decide
  · rw [(targetKey_strip (bytes "/releases//v1/") (bytes "build") (bytes "build//app.js")).1
      (bytes "//app.js") (by decide)]
    decide

/-! ### Content classifier -/

theorem extLoop_succ (path : GoString) (i : Nat) :
    extLoop path (i + 1) =
      if IsPathSeparator (path.getD i 0) then []
      else if path.getD i 0 = Dot then path.drop i
      else extLoop path i := rfl

theorem extLoop_segment (dir seg : GoString) (hsep : Separator ∉ seg) (hdot : Dot ∉ seg)
    (k : Nat) (hk : k ≤ seg.length) :
    extLoop (dir ++ seg) (dir.length + k) = extLoop (dir ++ seg) dir.length := by
  induction k with
  | zero => rfl
  | succ k ih =>
    have hlt : k < seg.length := hk
    have hget : (dir ++ seg).getD (dir.length + k) 0 = seg[k] := by
      rw [List.getD_append_right _ _ _ _ (Nat.le_add_right _ _), Nat.add_sub_cancel_left,
        List.getD_eq_getElem _ _ hlt]
    have hmem : seg[k] ∈ seg := List.getElem_mem _
    show extLoop (dir ++ seg) (dir.length + k + 1) = _
    rw [extLoop_succ, hget]
    have h1 : IsPathSeparator seg[k] = false :=
      (isPathSeparator_eq_false _).2 (fun h => hsep (h ▸ hmem))
    have h2 : seg[k] ≠ Dot := fun h => hdot (h ▸ hmem)
    rw [h1, if_neg (by simp), if_neg h2]
    exact ih (Nat.le_of_lt hlt)

theorem ext_eq_nil (dir seg : GoString) (hdir : dir = [] ∨ dir.getLast? = some Separator)
    (hsep : Separator ∉ seg) (hdot : Dot ∉ seg) : Ext (dir ++ seg) = [] := by
  unfold Ext
  rw [List.length_append, extLoop_segment dir seg hsep hdot _ (le_refl _)]
  rcases hdir with h | h
  · subst h
    rfl
  · obtain ⟨ys, rfl⟩ := List.getLast?_eq_some_iff.1 h
    have hget : (ys ++ [Separator] ++ seg).getD ys.length 0 = Separator := by
      rw [List.append_assoc, List.getD_append_right _ _ _ _ (le_refl _)]
      simp
    rw [List.length_append, List.length_singleton, extLoop_succ, hget]
    rfl

/-- C10: `contentType` returns the table's type for the extension of the path
when that type is not empty and `application/octet-stream` otherwise; it never
returns the empty string; and, the table having no type for the empty
extension, it returns `application/octet-stream` for every path whose final
segment holds no dot. -/
theorem contentType_spec (mime : GoString → GoString) (path : GoString) :
    contentType mime path =
        (if mime (Ext path) ≠ [] then mime (Ext path)
         else bytes "application/octet-stream") ∧
      contentType mime path ≠ [] ∧
      (mime [] = [] → ∀ dir seg, path = dir ++ seg →
        (dir = [] ∨ dir.getLast? = some Separator) → Separator ∉ seg → Dot ∉ seg →
        contentType mime path = bytes "application/octet-stream") := by
  refine ⟨?_, ?_, ?_⟩
  · unfold contentType
    by_cases h : mime (Ext path) = []
    · simp [h]
    · simp [h]
  · unfold contentType
    dsimp only
    split_ifs with h
    · decide
    · exact h
  · rintro hnil dir seg rfl hdir hsep hdot
    unfold contentType
    simp only [ext_eq_nil dir seg hdir hsep hdot, hnil, if_true]

/-- The examples of the specification: `.html`, `.json`, an unknown extension
and a missing one. -/
theorem contentType_spec_witness :
    contentType demoMime (bytes "site/index.html") = bytes "text/html; charset=utf-8" ∧
      contentType demoMime (bytes "api/data.json") = bytes "application/json" ∧
      contentType demoMime (bytes "a/b.xyz") = bytes "application/octet-stream" ∧
      contentType demoMime (bytes "build.d/Makefile") = bytes "application/octet-stream" := by
  refine ⟨?_, ?_, ?_, ?_⟩
  · rw [(contentType_spec demoMime (bytes "site/index.html")).1]
    decide
  · rw [(contentType_spec demoMime (bytes "api/data.json")).1]
    decide
  · rw [(contentType_spec demoMime (bytes "a/b.xyz")).1]
    decide
  · exact (contentType_spec demoMime (bytes "build.d/Makefile")).2.2 (by decide)
      (bytes "build.d/") (bytes "Makefile") (by decide) (Or.inr (by decide)) (by decide)
      (by decide)

/-! ### Matcher -/

theorem mem_insertAll (ms excludem : List GoString) (x : GoString) :
    x ∈ insertAll excludem ms ↔ x ∈ excludem ∨ x ∈ ms := by
  induction ms generalizing excludem with
  | nil => simp [insertAll]
  | cons m ms ih =>
    simp only [insertAll, ih, List.mem_cons]
    tauto

theorem excludeLoop_ok (glob : GoString → Except GoError (List GoString))
    (exp : GoString → List GoString) (pats excludem : List GoString)
    (h : ∀ pat ∈ pats, glob pat = .ok (exp pat)) :
    ∃ m, excludeLoop glob pats excludem = .ok m ∧
      ∀ x, x ∈ m ↔ x ∈ excludem ∨ ∃ pat ∈ pats, x ∈ exp pat := by
  induction pats generalizing excludem with
  | nil => exact ⟨excludem, rfl, by simp⟩
  | cons pat rest ih =>
    have hpat := h pat (List.mem_cons_self _ _)
    obtain ⟨m, hm, hmem⟩ :=
      ih (insertAll excludem (exp pat)) (fun q hq => h q (List.mem_cons_of_mem _ hq))
    refine ⟨m, ?_, ?_⟩
    · simp only [excludeLoop, hpat]
      exact hm
    · intro x
      rw [hmem x, mem_insertAll]
      simp only [List.mem_cons, exists_eq_or_imp]
      tauto

theorem includedLoop_eq_filter (excludem ms : List GoString) :
    includedLoop excludem ms = ms.filter (fun x => decide (x ∉ excludem)) := by
  induction ms with
  | nil => rfl
  | cons m ms ih =>
    by_cases hm : m ∈ excludem
    · simp [includedLoop, hm, ih]
    · simp [includedLoop, hm, ih]

/-- What `matches` returns when every expansion succeeds: the include
expansion filtered by the exclude expansions. -/
theorem matches_eq_filter (glob : GoString → Except GoError (List GoString))
    (exp : GoString → List GoString) (incl : GoString) (exclude : List GoString)
    (hinc : glob incl = .ok (exp incl))
    (hexc : ∀ pat ∈ exclude, glob pat = .ok (exp pat)) :
    «matches» glob incl exclude =
      .ok ((exp incl).filter (fun x => decide (∀ pat ∈ exclude, x ∉ exp pat))) := by
  unfold «matches»
  simp only [hinc]
  cases exclude with
  | nil => simp
  | cons pat rest =>
    obtain ⟨m, hm, hmem⟩ := excludeLoop_ok glob exp (pat :: rest) [] hexc
    simp only [List.length_cons, Nat.succ_ne_zero, if_false, hm, includedLoop_eq_filter]
    congr 1
    apply List.filter_congr
    intro x _
    have := hmem x
    simp only [List.not_mem_nil, false_or] at this
    simp only [decide_eq_decide, this]
    constructor
    · intro h q hq hx
      exact h ⟨q, hq, hx⟩
    · rintro h ⟨q, hq, hx⟩
      exact h q hq hx

/-- C1: for every include pattern and every list of exclude patterns whose
expansions all succeed, `matches` returns the include expansion with every path
that occurs in the expansion of an exclude pattern removed, in the order of the
include expansion; the result holds no excluded path, and with no exclude
pattern it is the include expansion unchanged. -/
theorem matches_spec (glob : GoString → Except GoError (List GoString))
    (exp : GoString → List GoString) (incl : GoString) (exclude : List GoString)
    (hinc : glob incl = .ok (exp incl))
    (hexc : ∀ pat ∈ exclude, glob pat = .ok (exp pat)) :
    ∃ res, «matches» glob incl exclude = .ok res ∧
      res = (exp incl).filter (fun x => decide (∀ pat ∈ exclude, x ∉ exp pat)) ∧
      res.Sublist (exp incl) ∧
      (∀ x, x ∈ res ↔ x ∈ exp incl ∧ ∀ pat ∈ exclude, x ∉ exp pat) ∧
      (exclude = [] → res = exp incl) := by
  refine ⟨_, matches_eq_filter glob exp incl exclude hinc hexc, rfl,
    List.filter_sublist _, ?_, ?_⟩
  · intro x
    simp [List.mem_filter]
  · intro h
    subst h
    simp

/-- The example of the specification: `build/**` without `build/**/*.map`. -/
theorem matches_spec_witness :
    ∃ res, «matches» demoGlob (bytes "build/**") [bytes "build/**/*.map"] = .ok res ∧
      res = [bytes "build/app.js", bytes "build/img/logo.png"] := by
  obtain ⟨res, h, hres, _⟩ := matches_spec demoGlob
    (fun pat => if pat = bytes "build/**" then
        [bytes "build/app.js", bytes "build/app.js.map", bytes "build/img/logo.png"]
      else [bytes "build/app.js.map"])
    (bytes "build/**") [bytes "build/**/*.map"] (by rfl)
    (by intro pat hpat; rw [List.mem_singleton] at hpat; subst hpat; rfl)
  refine ⟨res, h, ?_⟩
  rw [hres]
  decide

/-- C2 as stated fails: with an include expansion that lists `a` twice and no
exclude pattern, `a` occurs twice in the result. -/
theorem matches_keeps_duplicates :
    «matches» dupGlob (bytes "*") [] = .ok [bytes "a", bytes "a"] ∧
      ¬ (∀ (glob : GoString → Except GoError (List GoString)) (incl : GoString)
          (exclude res inc : List GoString) (x : GoString),
          «matches» glob incl exclude = .ok res → glob incl = .ok inc → x ∈ inc →
          (∀ pat ∈ exclude, ∀ ex, glob pat = .ok ex → x ∉ ex) → res.count x = 1) := by
  refine ⟨rfl, fun h => ?_⟩
  have := h dupGlob (bytes "*") [] [bytes "a", bytes "a"] [bytes "a", bytes "a"] (bytes "a")
    rfl rfl (by decide) (by simp)
  revert this
  decide

/-- C2, amended: a path matched by no exclude pattern occurs in the result as
often as in the include expansion, an excluded path does not occur, and the
result is free of duplicates when the include expansion is. -/
theorem matches_count (glob : GoString → Except GoError (List GoString))
    (exp : GoString → List GoString) (incl : GoString) (exclude : List GoString)
    (hinc : glob incl = .ok (exp incl))
    (hexc : ∀ pat ∈ exclude, glob pat = .ok (exp pat)) :
    ∃ res, «matches» glob incl exclude = .ok res ∧
      (∀ x, (∀ pat ∈ exclude, x ∉ exp pat) → res.count x = (exp incl).count x) ∧
      (∀ x, (∃ pat ∈ exclude, x ∈ exp pat) → res.count x = 0) ∧
      ((exp incl).Nodup → res.Nodup) := by
  refine ⟨_, matches_eq_filter glob exp incl exclude hinc hexc, ?_, ?_, ?_⟩
  · intro x hx
    rw [List.count_filter]
    simpa using hx
  · rintro x ⟨pat, hpat, hx⟩
    rw [List.count_eq_zero, List.mem_filter]
    rintro ⟨_, h⟩
    exact (of_decide_eq_true h) pat hpat hx
  · intro h
    exact h.filter _

/-- The example of the specification has each kept path exactly once. -/
theorem matches_count_witness :
    ∃ res, «matches» demoGlob (bytes "build/**") [bytes "build/**/*.map"] = .ok res ∧
      res.count (bytes "build/app.js") = 1 ∧ res.count (bytes "build/app.js.map") = 0 ∧
      res.Nodup := by
  obtain ⟨res, h, hkeep, hdrop, hnodup⟩ := matches_count demoGlob
    (fun pat => if pat = bytes "build/**" then
        [bytes "build/app.js", bytes "build/app.js.map", bytes "build/img/logo.png"]
      else [bytes "build/app.js.map"])
    (bytes "build/**") [bytes "build/**/*.map"] (by rfl)
    (by intro pat hpat; rw [List.mem_singleton] at hpat; subst hpat; rfl)
  refine ⟨res, h, ?_, ?_, hnodup (by decide)⟩
  · rw [hkeep _ (by decide)]
    decide
  · exact hdrop _ ⟨bytes "build/**/*.map", by decide, by decide⟩

/-! ### Transfer pipeline -/

theorem attrs_contentEncoding (p : Plugin) (content : GoString) :
    (p.attrs content).ContentEncoding = if p.Compress then some (bytes "gzip") else none := by
  unfold Plugin.attrs
  dsimp only
  split_ifs <;> rfl

theorem uploadFile_dryRun (p : Plugin) (w : World) (tr : List Entry) (name target : GoString)
    (h : p.DryRun = true) :
    p.uploadFile w tr name target =
      ([ok (p.logUploading name target (contentType w.mime name))], none) := by
  unfold Plugin.uploadFile emit
  simp [h, prepend, ok]

theorem transfer_shape (p : Plugin) (w : World) (tr : List Entry) (name target : GoString) :
    TransferShape p w name target
      (emit tr (.newWriter target) fun tr =>
        (if p.Compress then
          fun k => attempt w tr (.copy name target true) fun tr =>
            attempt w tr (.gzipClose target) k
        else
          fun k => attempt w tr (.copy name target false) k) fun tr =>
        attempt w tr (.writerClose target) fun tr =>
        emit tr (.log "info" "Uploaded file"
          (p.logFields name target (contentType w.mime name))) fun tr =>
        (if p.Access = bytes "public" then
          fun k => attempt w tr (.aclSet target) k
        else
          fun k => k tr) fun tr =>
        attempt w tr (.update target (p.attrs (contentType w.mime name))) fun tr =>
        emit tr (.log "info" "Updated Attributes"
          (p.logFields name target (contentType w.mime name))) fun _ =>
        ([], none)).1
      (emit tr (.newWriter target) fun tr =>
        (if p.Compress then
          fun k => attempt w tr (.copy name target true) fun tr =>
            attempt w tr (.gzipClose target) k
        else
          fun k => attempt w tr (.copy name target false) k) fun tr =>
        attempt w tr (.writerClose target) fun tr =>
        emit tr (.log "info" "Uploaded file"
          (p.logFields name target (contentType w.mime name))) fun tr =>
        (if p.Access = bytes "public" then
          fun k => attempt w tr (.aclSet target) k
        else
          fun k => k tr) fun tr =>
        attempt w tr (.update target (p.attrs (contentType w.mime name))) fun tr =>
        emit tr (.log "info" "Updated Attributes"
          (p.logFields name target (contentType w.mime name))) fun _ =>
        ([], none)).2 := by
  have e1 := fun e => @TransferShape.copyFails p w name target e
  have e2 := fun e => @TransferShape.gzipCloseFails p w name target e
  have e3 := fun e => @TransferShape.writerCloseFails p w name target e
  have e4 := fun e => @TransferShape.aclFails p w name target e
  have e5 := fun e => @TransferShape.updateFails p w name target e
  have e6 := @TransferShape.done p w name target
  unfold attempt emit
  by_cases hC : p.Compress = true <;> by_cases hA : p.Access = bytes "public"
  all_goals simp only [hC, hA, if_true, if_false, bodyOk, committedOk, aclOk, ok,
    List.cons_append, List.nil_append, List.append_assoc, true_implies, Bool.false_eq_true,
    false_implies] at e1 e2 e3 e4 e5 e6 ⊢
  all_goals repeat' first | split | simp only [prepend]
  all_goals first
    | exact e1 _ | exact e2 _ | exact e3 _ | exact e4 _ | exact e5 _ | exact e6

theorem uploadFile_shape (p : Plugin) (w : World) (tr : List Entry) (name target : GoString) :
    UploadShape p w name target (p.uploadFile w tr name target).1
      (p.uploadFile w tr name target).2 := by
  unfold Plugin.uploadFile
  by_cases hdry : p.DryRun = true
  · simp only [emit, prepend, if_pos hdry]
    exact .dryRun hdry
  have hdry2 : p.DryRun = false := by simpa using hdry
  simp only [emit, prepend, hdry2, Bool.false_eq_true, if_false]
  split
  · exact .openFails hdry2 _
  · simp only [deferred]
    exact .opened hdry2 _ _ _ (transfer_shape p w _ name target)

/-- The entries before a metadata operation hold every entry of a prefix
without metadata operation. -/
theorem prefix_of_split (a b pre post : List Entry) (x : Entry)
    (ha : ∀ y ∈ a, y.op.isMetadata = false) (hx : x.op.isMetadata = true)
    (h : a ++ b = pre ++ x :: post) : a <+: pre := by
  induction a generalizing pre with
  | nil => exact List.nil_prefix
  | cons y a ih =>
    cases pre with
    | nil =>
      simp only [List.cons_append, List.nil_append, List.cons.injEq] at h
      have := ha y (List.mem_cons_self _ _)
      rw [h.1, hx] at this
      cases this
    | cons z pre =>
      simp only [List.cons_append, List.cons.injEq] at h
      rw [h.1, List.cons_prefix_cons]
      exact ⟨rfl, ih pre (fun u hu => ha u (List.mem_cons_of_mem _ hu)) h.2⟩

theorem transferShape_update (p : Plugin) (w : World) (name target : GoString)
    (d : List Entry) (r : Option GoError) (h : TransferShape p w name target d r) :
    ∀ x ∈ d, ∀ t attrs, x.op = .update t attrs →
      t = target ∧ attrs = p.attrs (contentType w.mime name) := by
  by_cases hC : p.Compress = true <;> by_cases hA : p.Access = bytes "public" <;>
    cases h <;> simp [bodyOk, committedOk, aclOk, ok, hC, hA]

theorem uploadShape_update (p : Plugin) (w : World) (name target : GoString)
    (d : List Entry) (r : Option GoError) (h : UploadShape p w name target d r) :
    ∀ x ∈ d, ∀ t attrs, x.op = .update t attrs →
      t = target ∧ attrs = p.attrs (contentType w.mime name) := by
  cases h with
  | dryRun h => simp [ok, Plugin.logUploading]
  | openFails h e => simp [ok, Plugin.logUploading]
  | opened h inner r c hinner =>
    have := transferShape_update p w name target inner _ hinner
    simp only [List.mem_cons, List.mem_append, List.not_mem_nil, or_false]
    rintro x ((rfl | rfl | hx) | rfl)
    · simp [ok, Plugin.logUploading]
    · simp [ok]
    · exact this x hx
    · simp

theorem committedOk_noMeta (p : Plugin) (w : World) (name target : GoString) :
    ∀ y ∈ committedOk p w name target, y.op.isMetadata = false := by
  by_cases hC : p.Compress = true <;>
    simp [bodyOk, committedOk, ok, hC, Op.isMetadata]

theorem commitOk_infix (p : Plugin) (w : World) (name target : GoString) :
    commitOk p name target <:+: committedOk p w name target :=
  ⟨[ok (.newWriter target)],
    [ok (.log "info" "Uploaded file" (p.logFields name target (contentType w.mime name)))],
    by simp [commitOk, committedOk, bodyOk]⟩

theorem transferShape_meta (p : Plugin) (w : World) (name target : GoString)
    (d : List Entry) (r : Option GoError) (h : TransferShape p w name target d r) :
    (∀ y ∈ d, y.op.isMetadata = false) ∨ ∃ rest, d = committedOk p w name target ++ rest := by
  cases h with
  | copyFails e => left; simp [ok, Op.isMetadata]
  | gzipCloseFails e h => left; simp [ok, Op.isMetadata]
  | writerCloseFails e =>
    left
    by_cases hC : p.Compress = true <;> simp [bodyOk, ok, hC, Op.isMetadata]
  | aclFails e h => exact Or.inr ⟨_, rfl⟩
  | updateFails e => exact Or.inr ⟨_, List.append_assoc _ _ _⟩
  | done => exact Or.inr ⟨_, List.append_assoc _ _ _⟩

theorem transferShape_sameObject (p : Plugin) (w : World) (name target : GoString)
    (d : List Entry) (r : Option GoError) (h : TransferShape p w name target d r) :
    ∀ x ∈ d, x.op.isMetadata = true →
      x.op = .aclSet target ∨ x.op = .update target (p.attrs (contentType w.mime name)) := by
  by_cases hC : p.Compress = true <;> by_cases hA : p.Access = bytes "public" <;>
    cases h <;> simp [bodyOk, committedOk, aclOk, ok, hC, hA, Op.isMetadata]

theorem transferShape_bodyFails (p : Plugin) (w : World) (name target : GoString)
    (d : List Entry) (r : Option GoError) (h : TransferShape p w name target d r) :
    ∀ x ∈ d, x.op.isBody = true → x.err ≠ none → ∀ y ∈ d, y.op.isMetadata = false := by
  by_cases hC : p.Compress = true <;> by_cases hA : p.Access = bytes "public" <;>
    cases h <;> simp [bodyOk, committedOk, aclOk, ok, hC, hA, Op.isMetadata, Op.isBody]

theorem transferShape_propagates (p : Plugin) (w : World) (name target : GoString)
    (d : List Entry) (r : Option GoError) (h : TransferShape p w name target d r) :
    ∀ x ∈ d, x.op.isTransfer = true → ∀ e, x.err = some e → r = some e := by
  by_cases hC : p.Compress = true <;> by_cases hA : p.Access = bytes "public" <;>
    cases h <;> simp [bodyOk, committedOk, aclOk, ok, hC, hA, Op.isTransfer]

theorem transferShape_done (p : Plugin) (w : World) (name target : GoString)
    (d : List Entry) (h : TransferShape p w name target d none) :
    d = committedOk p w name target ++ aclOk p target ++
        [ok (.update target (p.attrs (contentType w.mime name))),
         ok (.log "info" "Updated Attributes"
           (p.logFields name target (contentType w.mime name)))] := by
  cases h
  rfl

theorem uploadShape_meta (p : Plugin) (w : World) (name target : GoString)
    (d : List Entry) (r : Option GoError) (h : UploadShape p w name target d r) :
    (∀ y ∈ d, y.op.isMetadata = false) ∨
      ∃ rest, d = (ok (p.logUploading name target (contentType w.mime name)) ::
        ok (.osOpen name) :: committedOk p w name target) ++ rest := by
  cases h with
  | dryRun h => left; simp [ok, Plugin.logUploading, Op.isMetadata]
  | openFails h e => left; simp [ok, Plugin.logUploading, Op.isMetadata]
  | opened h inner r c hinner =>
    rcases transferShape_meta p w name target inner r hinner with hno | ⟨rest, rfl⟩
    · left
      simp only [List.mem_cons, List.mem_append, List.not_mem_nil, or_false]
      rintro y ((rfl | rfl | hy) | rfl)
      · rfl
      · rfl
      · exact hno y hy
      · rfl
    · exact Or.inr ⟨rest ++ [⟨.fileClose name, c⟩], by simp⟩

theorem uploadShape_sameObject (p : Plugin) (w : World) (name target : GoString)
    (d : List Entry) (r : Option GoError) (h : UploadShape p w name target d r) :
    ∀ x ∈ d, x.op.isMetadata = true →
      x.op = .aclSet target ∨ x.op = .update target (p.attrs (contentType w.mime name)) := by
  cases h with
  | dryRun h => simp [ok, Plugin.logUploading, Op.isMetadata]
  | openFails h e => simp [ok, Plugin.logUploading, Op.isMetadata]
  | opened h inner r c hinner =>
    simp only [List.mem_cons, List.mem_append, List.not_mem_nil, or_false]
    rintro x ((rfl | rfl | hx) | rfl)
    · intro h; cases h
    · intro h; cases h
    · exact transferShape_sameObject p w name target inner r hinner x hx
    · intro h; cases h

theorem uploadShape_bodyFails (p : Plugin) (w : World) (name target : GoString)
    (d : List Entry) (r : Option GoError) (h : UploadShape p w name target d r) :
    ∀ x ∈ d, x.op.isBody = true → x.err ≠ none → ∀ y ∈ d, y.op.isMetadata = false := by
  cases h with
  | dryRun h => simp [ok, Plugin.logUploading, Op.isMetadata]
  | openFails h e => simp [ok, Plugin.logUploading, Op.isMetadata]
  | opened h inner r c hinner =>
    have hin := transferShape_bodyFails p w name target inner r hinner
    simp only [List.mem_cons, List.mem_append, List.not_mem_nil, or_false]
    rintro x ((rfl | rfl | hx) | rfl) hb he
    · cases hb
    · exact absurd rfl he
    · rintro y ((rfl | rfl | hy) | rfl)
      · rfl
      · rfl
      · exact hin x hx hb he y hy
      · rfl
    · cases hb

/-- C8: in every execution of `uploadFile`, an ACL grant or attribute update
is on the object of this file and comes after the successful open, copy, close
of the gzip writer (when compressing) and close of the remote writer, in that
order; and when the open, the copy or a close fails, no ACL grant and no
attribute update is performed. -/
theorem uploadFile_metadata_after_commit (p : Plugin) (w : World) (tr : List Entry)
    (name target : GoString) :
    (∀ pre x post, (p.uploadFile w tr name target).1 = pre ++ x :: post →
      x.op.isMetadata = true →
        ok (.osOpen name) ∈ pre ∧ commitOk p name target <:+: pre ∧
        (x.op = .aclSet target ∨
          x.op = .update target (p.attrs (contentType w.mime name)))) ∧
    (∀ x ∈ (p.uploadFile w tr name target).1, x.op.isBody = true → x.err ≠ none →
      ∀ y ∈ (p.uploadFile w tr name target).1, y.op.isMetadata = false) := by
  have hs := uploadFile_shape p w tr name target
  refine ⟨?_, uploadShape_bodyFails p w name target _ _ hs⟩
  intro pre x post hsplit hx
  have hmem : x ∈ (p.uploadFile w tr name target).1 := by
    rw [hsplit]; simp
  refine ⟨?_, ?_, uploadShape_sameObject p w name target _ _ hs x hmem hx⟩
  all_goals
    rcases uploadShape_meta p w name target _ _ hs with hno | ⟨rest, hrest⟩
    · have := hno x hmem
      rw [hx] at this
      cases this
  · have hpre := prefix_of_split _ rest pre post x (by
      intro y hy
      rcases List.mem_cons.1 hy with rfl | hy
      · rfl
      rcases List.mem_cons.1 hy with rfl | hy
      · rfl
      exact committedOk_noMeta p w name target y hy) hx (hrest.symm.trans hsplit)
    exact hpre.subset (by simp)
  · have hpre := prefix_of_split _ rest pre post x (by
      intro y hy
      rcases List.mem_cons.1 hy with rfl | hy
      · rfl
      rcases List.mem_cons.1 hy with rfl | hy
      · rfl
      exact committedOk_noMeta p w name target y hy) hx (hrest.symm.trans hsplit)
    refine List.IsInfix.trans ?_ hpre.isInfix
    obtain ⟨a, b, hab⟩ := commitOk_infix p w name target
    exact ⟨ok (p.logUploading name target (contentType w.mime name)) :: ok (.osOpen name) :: a,
      b, by simp [← hab]⟩

/-- An upload of the example: the ACL grant is the eighth entry, and the
successful copy and closes are among the seven before it. -/
theorem uploadFile_metadata_after_commit_witness :
    commitOk demoPlugin (bytes "build/app.js") (bytes "releases/v1/app.js") <:+:
      (demoPlugin.uploadFile demoWorld [] (bytes "build/app.js")
        (bytes "releases/v1/app.js")).1.take 7 :=
  ((uploadFile_metadata_after_commit demoPlugin demoWorld [] (bytes "build/app.js")
    (bytes "releases/v1/app.js")).1
    ((demoPlugin.uploadFile demoWorld [] (bytes "build/app.js")
      (bytes "releases/v1/app.js")).1.take 7)
    (ok (.aclSet (bytes "releases/v1/app.js")))
    ((demoPlugin.uploadFile demoWorld [] (bytes "build/app.js")
      (bytes "releases/v1/app.js")).1.drop 8)
    (by decide) rfl).2.1

/-- C7: every attribute update that `uploadFile` applies is on the object of
the file and has content-encoding `gzip` exactly when `Compress` is set, and
no content-encoding when it is not; an upload that returns no error has applied
such an update. -/
theorem uploadFile_contentEncoding (p : Plugin) (w : World) (tr : List Entry)
    (name target : GoString) :
    (∀ x ∈ (p.uploadFile w tr name target).1, ∀ t attrs, x.op = .update t attrs →
      t = target ∧ (attrs.ContentEncoding = some (bytes "gzip") ↔ p.Compress = true) ∧
      (p.Compress = false → attrs.ContentEncoding = none)) ∧
    (p.DryRun = false → (p.uploadFile w tr name target).2 = none →
      ∃ attrs, ok (.update target attrs) ∈ (p.uploadFile w tr name target).1) := by
  have hs := uploadFile_shape p w tr name target
  constructor
  · intro x hx t attrs hop
    obtain ⟨rfl, rfl⟩ := uploadShape_update p w name target _ _ hs x hx _ attrs hop
    rw [attrs_contentEncoding]
    cases p.Compress <;> simp
  · intro hdry hr
    generalize (p.uploadFile w tr name target).1 = d at hs
    generalize (p.uploadFile w tr name target).2 = r at hs hr
    subst hr
    cases hs with
    | dryRun h => rw [hdry] at h; cases h
    | opened h inner _ c hinner =>
      rw [transferShape_done p w name target inner hinner]
      exact ⟨p.attrs (contentType w.mime name), by simp⟩

/-- An upload of the example with compression: the update has content-encoding
`gzip`; without compression it has none. -/
theorem uploadFile_contentEncoding_witness :
    (demoPlugin.attrs (bytes "application/octet-stream")).ContentEncoding = some (bytes "gzip") ∧
      ok (.update (bytes "releases/v1/app.js")
        (demoPlugin.attrs (bytes "application/octet-stream"))) ∈
        (demoPlugin.uploadFile demoWorld [] (bytes "build/app.js")
          (bytes "releases/v1/app.js")).1 ∧
      ({ demoPlugin with Compress := false }.attrs
        (bytes "application/octet-stream")).ContentEncoding = none := by
  have h := (uploadFile_contentEncoding demoPlugin demoWorld [] (bytes "build/app.js")
    (bytes "releases/v1/app.js")).1
    (ok (.update (bytes "releases/v1/app.js")
      (demoPlugin.attrs (bytes "application/octet-stream")))) (by decide) _ _ rfl
  exact ⟨h.2.1.2 rfl, by decide, by decide⟩

theorem uploadShape_propagates (p : Plugin) (w : World) (name target : GoString)
    (d : List Entry) (r : Option GoError) (h : UploadShape p w name target d r) :
    ∀ x ∈ d, x.op.isTransfer = true → ∀ e, x.err = some e → r = some e := by
  cases h with
  | dryRun h => simp [ok, Plugin.logUploading, Op.isTransfer]
  | openFails h e => simp [ok, Plugin.logUploading, Op.isTransfer]
  | opened h inner r c hinner =>
    have hin := transferShape_propagates p w name target inner r hinner
    simp only [List.mem_cons, List.mem_append, List.not_mem_nil, or_false]
    rintro x ((rfl | rfl | hx) | rfl) ht e he
    · cases ht
    · cases he
    · exact hin x hx ht e he
    · cases ht

theorem uploadShape_fails (p : Plugin) (w : World) (name target : GoString)
    (d : List Entry) (e : GoError) (h : UploadShape p w name target d (some e)) :
    p.DryRun = false ∧ ∃ x ∈ d, x.op.isTransfer = true ∧ x.err = some e := by
  cases h with
  | openFails h e => exact ⟨h, ⟨.osOpen name, some e⟩, by simp, rfl, rfl⟩
  | opened h inner _ c hinner =>
    refine ⟨h, ?_⟩
    have : ∃ x ∈ inner, x.op.isTransfer = true ∧ x.err = some e := by
      cases hinner with
      | copyFails => exact ⟨⟨.copy name target p.Compress, some e⟩, by simp, rfl, rfl⟩
      | gzipCloseFails => exact ⟨⟨.gzipClose target, some e⟩, by simp, rfl, rfl⟩
      | writerCloseFails => exact ⟨⟨.writerClose target, some e⟩, by simp, rfl, rfl⟩
      | aclFails => exact ⟨⟨.aclSet target, some e⟩, by simp, rfl, rfl⟩
      | updateFails =>
        exact ⟨⟨.update target (p.attrs (contentType w.mime name)), some e⟩, by simp, rfl, rfl⟩
    obtain ⟨x, hx, h1, h2⟩ := this
    exact ⟨x, by simp [hx], h1, h2⟩

theorem uploadShape_done (p : Plugin) (w : World) (name target : GoString)
    (d : List Entry) (h : UploadShape p w name target d none) :
    ok (p.logUploading name target (contentType w.mime name)) ∈ d ∧
      (p.DryRun = false → commitOk p name target <:+: d ∧
        ok (.update target (p.attrs (contentType w.mime name))) ∈ d) := by
  cases h with
  | dryRun h => exact ⟨by simp, fun h2 => by rw [h] at h2; cases h2⟩
  | opened h inner _ c hinner =>
    refine ⟨by simp, fun _ => ?_⟩
    rw [transferShape_done p w name target inner hinner]
    constructor
    · obtain ⟨a, b, hab⟩ := commitOk_infix p w name target
      refine ⟨ok (p.logUploading name target (contentType w.mime name)) ::
        ok (.osOpen name) :: a, b ++ (aclOk p target ++
        [ok (.update target (p.attrs (contentType w.mime name))),
         ok (.log "info" "Updated Attributes"
           (p.logFields name target (contentType w.mime name)))] ++
        [⟨.fileClose name, c⟩]), ?_⟩
      simp [← hab]
    · simp

/-! ### Orchestrator -/

theorem execLoop_stat_error (p : Plugin) (w : World) (tr : List Entry) (m : GoString)
    (ms : List GoString) (err : GoError) (h : w.stat m = .error err) :
    p.execLoop w tr (m :: ms) =
      prepend ⟨.stat m, some err⟩ (p.execLoop w (tr ++ [⟨.stat m, some err⟩]) ms) := by
  rw [Plugin.execLoop, h]

theorem execLoop_dir (p : Plugin) (w : World) (tr : List Entry) (m : GoString)
    (ms : List GoString) (h : w.stat m = .ok true) :
    p.execLoop w tr (m :: ms) =
      prepend (ok (.stat m)) (p.execLoop w (tr ++ [ok (.stat m)]) ms) := by
  rw [Plugin.execLoop, h]
  rfl

theorem execLoop_fail (p : Plugin) (w : World) (tr : List Entry) (m : GoString)
    (ms : List GoString) (e : GoError) (h : w.stat m = .ok false)
    (hup : (p.uploadFile w (tr ++ [ok (.stat m)]) m
      (targetKey p.Target p.StripPrefix m)).2 = some e) :
    p.execLoop w tr (m :: ms) =
      (ok (.stat m) ::
        (p.uploadFile w (tr ++ [ok (.stat m)]) m (targetKey p.Target p.StripPrefix m)).1 ++
        [ok (p.logCouldNotUpload m (targetKey p.Target p.StripPrefix m) e)], some e) := by
  rw [Plugin.execLoop, h]
  simp only [ok] at hup ⊢
  rw [hup]

theorem execLoop_ok (p : Plugin) (w : World) (tr : List Entry) (m : GoString)
    (ms : List GoString) (h : w.stat m = .ok false)
    (hup : (p.uploadFile w (tr ++ [ok (.stat m)]) m
      (targetKey p.Target p.StripPrefix m)).2 = none) :
    p.execLoop w tr (m :: ms) =
      ((ok (.stat m) ::
        (p.uploadFile w (tr ++ [ok (.stat m)]) m (targetKey p.Target p.StripPrefix m)).1) ++
        (p.execLoop w (tr ++ ok (.stat m) ::
          (p.uploadFile w (tr ++ [ok (.stat m)]) m
            (targetKey p.Target p.StripPrefix m)).1) ms).1,
       (p.execLoop w (tr ++ ok (.stat m) ::
          (p.uploadFile w (tr ++ [ok (.stat m)]) m
            (targetKey p.Target p.StripPrefix m)).1) ms).2) := by
  rw [Plugin.execLoop, h]
  simp only [ok] at hup ⊢
  rw [hup]

theorem execLoop_propagates (p : Plugin) (w : World) (ms : List GoString) :
    ∀ tr, ∀ x ∈ (p.execLoop w tr ms).1, x.op.isTransfer = true → ∀ e, x.err = some e →
      (p.execLoop w tr ms).2 = some e := by
  induction ms with
  | nil => intro tr x hx; simp [Plugin.execLoop] at hx
  | cons m ms ih =>
    intro tr x hx ht e he
    cases hstat : w.stat m with
    | error err =>
      rw [execLoop_stat_error p w tr m ms err hstat] at hx ⊢
      rcases List.mem_cons.1 hx with rfl | hx
      · cases ht
      · exact ih _ x hx ht e he
    | ok isDir =>
      cases isDir with
      | true =>
        rw [execLoop_dir p w tr m ms hstat] at hx ⊢
        rcases List.mem_cons.1 hx with rfl | hx
        · cases ht
        · exact ih _ x hx ht e he
      | false =>
        have hs := uploadFile_shape p w (tr ++ [ok (.stat m)]) m
          (targetKey p.Target p.StripPrefix m)
        have hprop := uploadShape_propagates p w m _ _ _ hs
        cases hup : (p.uploadFile w (tr ++ [ok (.stat m)]) m
            (targetKey p.Target p.StripPrefix m)).2 with
        | some e2 =>
          rw [execLoop_fail p w tr m ms e2 hstat hup] at hx ⊢
          simp only [List.mem_cons, List.mem_append, List.not_mem_nil, or_false] at hx
          rcases hx with (rfl | hx) | rfl
          · cases ht
          · rw [← hup]
            exact hprop x hx ht e he
          · cases ht
        | none =>
          rw [execLoop_ok p w tr m ms hstat hup] at hx ⊢
          simp only [List.mem_cons, List.mem_append] at hx
          rcases hx with (rfl | hx) | hx
          · cases ht
          · have := hprop x hx ht e he
            rw [hup] at this
            cases this
          · exact ih _ x hx ht e he

theorem execLoop_processed (p : Plugin) (w : World) (ms : List GoString) :
    ∀ tr, (p.execLoop w tr ms).2 = none → ∀ m ∈ ms, w.stat m = .ok false →
      p.Processed w m (p.execLoop w tr ms).1 := by
  induction ms with
  | nil => intro tr _ m hm; cases hm
  | cons m0 ms ih =>
    intro tr hnone m hm hfile
    have hmono : ∀ (a b : List Entry), p.Processed w m b → p.Processed w m (a ++ b) := by
      intro a b hb
      exact ⟨List.mem_append_right _ hb.1, fun hd =>
        ⟨List.IsInfix.trans (hb.2 hd).1 (List.suffix_append a b).isInfix,
          List.mem_append_right _ (hb.2 hd).2⟩⟩
    cases hstat : w.stat m0 with
    | error err =>
      rw [execLoop_stat_error p w tr m0 ms err hstat] at hnone ⊢
      rcases List.mem_cons.1 hm with rfl | hm
      · rw [hstat] at hfile; cases hfile
      · exact hmono [_] _ (ih _ hnone m hm hfile)
    | ok isDir =>
      cases isDir with
      | true =>
        rw [execLoop_dir p w tr m0 ms hstat] at hnone ⊢
        rcases List.mem_cons.1 hm with rfl | hm
        · rw [hstat] at hfile; cases hfile
        · exact hmono [_] _ (ih _ hnone m hm hfile)
      | false =>
        have hs := uploadFile_shape p w (tr ++ [ok (.stat m0)]) m0
          (targetKey p.Target p.StripPrefix m0)
        cases hup : (p.uploadFile w (tr ++ [ok (.stat m0)]) m0
            (targetKey p.Target p.StripPrefix m0)).2 with
        | some e2 =>
          rw [execLoop_fail p w tr m0 ms e2 hstat hup] at hnone
          cases hnone
        | none =>
          rw [execLoop_ok p w tr m0 ms hstat hup] at hnone ⊢
          rcases List.mem_cons.1 hm with rfl | hm
          · rw [hup] at hs
            have hd := uploadShape_done p w m _ _ hs
            refine ⟨List.mem_append_left _ (List.mem_cons_of_mem _ hd.1), fun hdry => ?_⟩
            refine ⟨List.IsInfix.trans ?_ (List.prefix_append _ _).isInfix,
              List.mem_append_left _ (List.mem_cons_of_mem _ (hd.2 hdry).2)⟩
            exact List.IsInfix.trans (hd.2 hdry).1 (List.suffix_cons _ _).isInfix
          · exact hmono _ _ (ih _ hnone m hm hfile)

theorem execLoop_dryRun (p : Plugin) (w : World) (hdry : p.DryRun = true)
    (ms : List GoString) :
    ∀ tr, (p.execLoop w tr ms).2 = none ∧
      ∀ x ∈ (p.execLoop w tr ms).1, x.op.isTransfer = false := by
  induction ms with
  | nil => intro tr; simp [Plugin.execLoop]
  | cons m ms ih =>
    intro tr
    cases hstat : w.stat m with
    | error err =>
      rw [execLoop_stat_error p w tr m ms err hstat]
      refine ⟨(ih _).1, fun x hx => ?_⟩
      rcases List.mem_cons.1 hx with rfl | hx
      · rfl
      · exact (ih _).2 x hx
    | ok isDir =>
      cases isDir with
      | true =>
        rw [execLoop_dir p w tr m ms hstat]
        refine ⟨(ih _).1, fun x hx => ?_⟩
        rcases List.mem_cons.1 hx with rfl | hx
        · rfl
        · exact (ih _).2 x hx
      | false =>
        have hup := uploadFile_dryRun p w (tr ++ [ok (.stat m)]) m
          (targetKey p.Target p.StripPrefix m) hdry
        have hup2 : (p.uploadFile w (tr ++ [ok (.stat m)]) m
            (targetKey p.Target p.StripPrefix m)).2 = none := by rw [hup]
        rw [execLoop_ok p w tr m ms hstat hup2]
        refine ⟨(ih _).1, fun x hx => ?_⟩
        rw [hup] at hx
        simp only [List.mem_cons, List.mem_append, List.not_mem_nil, or_false] at hx
        rcases hx with (rfl | rfl) | hx
        · rfl
        · rfl
        · exact (ih _).2 x hx

theorem execLoop_append_fail (p : Plugin) (w : World) (pre : List GoString)
    (f : GoString) (post : List GoString) (d2 : List Entry) (e : GoError)
    (hfiles : ∀ m ∈ pre, w.stat m = .ok false) (hf : w.stat f = .ok false) :
    ∀ tr d1, p.execLoop w tr pre = (d1, none) →
      p.uploadFile w (tr ++ d1 ++ [ok (.stat f)]) f (targetKey p.Target p.StripPrefix f)
        = (d2, some e) →
      p.execLoop w tr (pre ++ f :: post) =
        (d1 ++ ok (.stat f) :: d2 ++
          [ok (p.logCouldNotUpload f (targetKey p.Target p.StripPrefix f) e)], some e) := by
  induction pre with
  | nil =>
    intro tr d1 hpre hfail
    simp only [Plugin.execLoop, Prod.mk.injEq, and_true] at hpre
    subst hpre
    rw [List.append_nil] at hfail
    rw [List.nil_append, execLoop_fail p w tr f post e hf (by rw [hfail]), hfail]
    rfl
  | cons m pre ih =>
    intro tr d1 hpre hfail
    have hm := hfiles m (List.mem_cons_self _ _)
    cases hup : (p.uploadFile w (tr ++ [ok (.stat m)]) m
        (targetKey p.Target p.StripPrefix m)).2 with
    | some e2 =>
      rw [execLoop_fail p w tr m pre e2 hm hup] at hpre
      cases hpre
    | none =>
      rw [execLoop_ok p w tr m pre hm hup] at hpre
      simp only [Prod.mk.injEq] at hpre
      obtain ⟨h1, h2⟩ := hpre
      have hrest : p.execLoop w (tr ++ ok (.stat m) ::
          (p.uploadFile w (tr ++ [ok (.stat m)]) m
            (targetKey p.Target p.StripPrefix m)).1) pre =
          ((p.execLoop w (tr ++ ok (.stat m) ::
          (p.uploadFile w (tr ++ [ok (.stat m)]) m
            (targetKey p.Target p.StripPrefix m)).1) pre).1, none) := by
        rw [← h2]
      have := ih (fun q hq => hfiles q (List.mem_cons_of_mem _ hq)) _ _ hrest (by
        rw [← hfail, ← h1]
        simp)
      show p.execLoop w tr (m :: (pre ++ f :: post)) = _
      rw [execLoop_ok p w tr m _ hm hup, this, ← h1]
      simp

theorem Exec_shape (p : Plugin) (w : World) : ExecShape p w (p.Exec w).1 (p.Exec w).2 := by
  unfold Plugin.Exec attempt
  dsimp only
  split
  · exact .configFails _
  · split
    · exact .clientFails _
    · simp only [emit, deferred, prepend]
      cases hm : «matches» w.glob p.normalize.Source p.normalize.Exclude with
      | error e => exact .matchFails e _ hm
      | ok ms => exact .looped ms _ hm

theorem preamble_noTransfer (p : Plugin) : ∀ x ∈ p.preamble, x.op.isTransfer = false := by
  simp [Plugin.preamble, ok, Plugin.logAttempting, Op.isTransfer]

/-- C5: with `DryRun` set, `uploadFile` returns no error and adds only its
`Uploading file` line, which holds the target key and the content type, to the
trace; the loop of `Exec` over any matched set returns no error, performs no
open of a local file and no operation on the remote store, and logs the target
key and content type of every non-directory match; and the whole run
performs no such operation. -/
theorem dryRun_no_transfer (p : Plugin) (w : World) (hdry : p.DryRun = true) :
    (∀ tr name target, p.uploadFile w tr name target =
      ([ok (p.logUploading name target (contentType w.mime name))], none)) ∧
    (∀ tr ms, (p.execLoop w tr ms).2 = none ∧
      (∀ x ∈ (p.execLoop w tr ms).1, x.op.isTransfer = false) ∧
      (∀ m ∈ ms, w.stat m = .ok false →
        ok (p.logUploading m (targetKey p.Target p.StripPrefix m) (contentType w.mime m)) ∈
          (p.execLoop w tr ms).1)) ∧
    (∀ x ∈ (p.Exec w).1, x.op.isTransfer = false) := by
  refine ⟨fun tr name target => uploadFile_dryRun p w tr name target hdry, ?_, ?_⟩
  · intro tr ms
    refine ⟨(execLoop_dryRun p w hdry ms tr).1, (execLoop_dryRun p w hdry ms tr).2, ?_⟩
    intro m hm hfile
    exact (execLoop_processed p w ms tr (execLoop_dryRun p w hdry ms tr).1 m hm hfile).1
  · have hs := Exec_shape p w
    generalize (p.Exec w).1 = d at hs
    generalize (p.Exec w).2 = r at hs
    cases hs with
    | configFails e => simp [Op.isTransfer]
    | clientFails e => simp [ok, Op.isTransfer]
    | matchFails e c h =>
      intro x hx
      rcases List.mem_append.1 hx with hx | hx
      · exact preamble_noTransfer p x hx
      · simp only [List.mem_cons, List.not_mem_nil, or_false] at hx
        rcases hx with rfl | rfl <;> rfl
    | looped ms c h =>
      intro x hx
      simp only [List.mem_append, List.mem_cons, List.not_mem_nil, or_false] at hx
      rcases hx with (hx | hx) | rfl
      · exact preamble_noTransfer p x hx
      · exact (execLoop_dryRun p.normalize w hdry ms _).2 x hx
      · rfl

/-- A dry run of the example: no error, no transfer operation, and the first
file logged with its target key and content type. -/
theorem dryRun_no_transfer_witness :
    ({ demoPlugin with DryRun := true }.Exec demoWorld).2 = none ∧
      (∀ x ∈ ({ demoPlugin with DryRun := true }.Exec demoWorld).1, x.op.isTransfer = false) ∧
      ok (({ demoPlugin with DryRun := true } : Plugin).logUploading (bytes "build/app.js")
        (bytes "releases/v1/app.js") (bytes "application/octet-stream")) ∈
        ({ demoPlugin with DryRun := true }.Exec demoWorld).1 := by
  refine ⟨by decide, (dryRun_no_transfer { demoPlugin with DryRun := true } demoWorld rfl).2.2,
    by decide⟩

/-- C6: when the credentials and the client are accepted, all matched paths are
files, the files before position `k` are transferred without error and the
transfer of the file at position `k` fails with `e`, then `Exec` returns `e`,
every file before `k` has its copy, closes and attribute update done, and the
trace ends with the failed transfer, its error line and the deferred close of
the client: nothing is done for a file after `k`. -/
theorem Exec_abort_on_first_failure (p : Plugin) (w : World) (pre : List GoString)
    (f : GoString) (post : List GoString) (d1 d2 : List Entry) (e : GoError)
    (hjwt : w.failure [] (.jwtConfig p.Credentials) = none)
    (hclient : w.failure [ok (.jwtConfig p.Credentials)] .newClient = none)
    (hmatch : «matches» w.glob p.Source p.Exclude = .ok (pre ++ f :: post))
    (hfiles : ∀ m ∈ pre ++ f :: post, w.stat m = .ok false)
    (hpre : p.normalize.execLoop w p.preamble pre = (d1, none))
    (hfail : p.normalize.uploadFile w (p.preamble ++ d1 ++ [ok (.stat f)]) f
      (targetKey (normalizeTarget p.Target) p.StripPrefix f) = (d2, some e)) :
    (∃ c, p.Exec w =
      (p.preamble ++ (d1 ++ ok (.stat f) :: d2 ++
        [ok (p.logCouldNotUpload f (targetKey (normalizeTarget p.Target) p.StripPrefix f) e)])
        ++ [⟨.clientClose, c⟩], some e)) ∧
    (∀ m ∈ pre,
      commitOk p m (targetKey (normalizeTarget p.Target) p.StripPrefix m) <:+: d1 ∧
      ok (.update (targetKey (normalizeTarget p.Target) p.StripPrefix m)
        (p.attrs (contentType w.mime m))) ∈ d1) := by
  have hloop := execLoop_append_fail p.normalize w pre f post d2 e
    (fun m hm => hfiles m (List.mem_append_left _ hm))
    (hfiles f (by simp)) p.preamble d1 hpre hfail
  constructor
  · unfold Plugin.Exec attempt
    dsimp only
    have hjwt2 : w.failure [] (.jwtConfig p.normalize.Credentials) = none := hjwt
    have hclient2 : w.failure ([] ++ [⟨.jwtConfig p.normalize.Credentials, none⟩])
      .newClient = none := hclient
    rw [hjwt2]
    dsimp only
    rw [hclient2]
    simp only [emit, deferred, prepend]
    have hmatch2 : «matches» w.glob p.normalize.Source p.normalize.Exclude =
      .ok (pre ++ f :: post) := hmatch
    rw [hmatch2]
    have hloop2 : p.normalize.execLoop w
        ([] ++ [⟨.jwtConfig p.normalize.Credentials, none⟩] ++ [⟨.newClient, none⟩] ++
          [⟨p.normalize.logAttempting, none⟩]) (pre ++ f :: post) = _ := hloop
    dsimp only
    rw [hloop2]
    exact ⟨_, rfl⟩
  · intro m hm
    have hdry : p.normalize.DryRun = false := by
      have hs := uploadFile_shape p.normalize w (p.preamble ++ d1 ++ [ok (.stat f)]) f
        (targetKey (normalizeTarget p.Target) p.StripPrefix f)
      rw [hfail] at hs
      exact (uploadShape_fails p.normalize w f _ _ e hs).1
    have hproc := execLoop_processed p.normalize w pre p.preamble (by rw [hpre]) m hm
      (hfiles m (List.mem_append_left _ hm))
    rw [hpre] at hproc
    exact hproc.2 hdry

/-- The example of the specification: three files, the copy of the second
fails; the first is uploaded, the run fails and nothing is done for the
third. -/
theorem Exec_abort_on_first_failure_witness :
    (demoPlugin.Exec abortWorld).2 = some "write failed" ∧
      ok (.update (bytes "releases/v1/app.js")
        (demoPlugin.attrs (bytes "application/octet-stream"))) ∈ (demoPlugin.Exec abortWorld).1 ∧
      (demoPlugin.Exec abortWorld).1.all
        (fun x => decide (x.op ≠ .stat (bytes "build/img/logo.png")) &&
          decide (x.op ≠ .osOpen (bytes "build/img/logo.png"))) = true := by
  obtain ⟨⟨c, hexec⟩, hup⟩ := Exec_abort_on_first_failure demoPlugin abortWorld
    [bytes "build/app.js"] (bytes "build/app.js.map") [bytes "build/img/logo.png"]
    (demoPlugin.normalize.execLoop abortWorld demoPlugin.preamble [bytes "build/app.js"]).1
    (demoPlugin.normalize.uploadFile abortWorld
      (demoPlugin.preamble ++
        (demoPlugin.normalize.execLoop abortWorld demoPlugin.preamble [bytes "build/app.js"]).1
        ++ [ok (.stat (bytes "build/app.js.map"))])
      (bytes "build/app.js.map") (bytes "releases/v1/app.js.map")).1
    "write failed" rfl rfl rfl (fun _ _ => rfl) (by decide) (by decide)
  refine ⟨by rw [hexec], ?_, by decide⟩
  rw [hexec]
  have := (hup (bytes "build/app.js") (by decide)).2
  exact List.mem_append_left _ (List.mem_append_right _ (List.mem_append_left _
    (List.mem_append_left _ this)))

/-- C9, amended: an error of a transfer operation (open, copy, a close, ACL
grant, attribute update) on a matched path is the error `Exec` returns; and
when `Exec` returns no error, the patterns were expanded and every matched
path that `os.Stat` reports as a file was processed. -/
theorem Exec_propagates_transfer_errors (p : Plugin) (w : World) :
    (∀ x ∈ (p.Exec w).1, x.op.isTransfer = true → ∀ e, x.err = some e →
      (p.Exec w).2 = some e) ∧
    ((p.Exec w).2 = none → ∃ ms, «matches» w.glob p.Source p.Exclude = .ok ms ∧
      ∀ m ∈ ms, w.stat m = .ok false → p.normalize.Processed w m (p.Exec w).1) := by
  have hs := Exec_shape p w
  generalize (p.Exec w).1 = d at hs
  generalize (p.Exec w).2 = r at hs
  cases hs with
  | configFails e => exact ⟨by simp [Op.isTransfer], by simp⟩
  | clientFails e => exact ⟨by simp [ok, Op.isTransfer], by simp⟩
  | matchFails e c h =>
    refine ⟨?_, by simp⟩
    intro x hx ht
    rcases List.mem_append.1 hx with hx | hx
    · rw [preamble_noTransfer p x hx] at ht; cases ht
    · simp only [List.mem_cons, List.not_mem_nil, or_false] at hx
      rcases hx with rfl | rfl <;> cases ht
  | looped ms c h =>
    constructor
    · intro x hx ht e he
      simp only [List.mem_append, List.mem_cons, List.not_mem_nil, or_false] at hx
      rcases hx with (hx | hx) | rfl
      · rw [preamble_noTransfer p x hx] at ht; cases ht
      · exact execLoop_propagates p.normalize w ms _ x hx ht e he
      · cases ht
    · intro hnone
      refine ⟨ms, h, fun m hm hfile => ?_⟩
      have hproc := execLoop_processed p.normalize w ms p.preamble hnone m hm hfile
      refine ⟨?_, fun hdry => ⟨?_, ?_⟩⟩
      · exact List.mem_append_left _ (List.mem_append_right _ hproc.1)
      · refine List.IsInfix.trans (hproc.2 hdry).1 ?_
        exact ⟨p.preamble, [⟨.clientClose, c⟩], rfl⟩
      · exact List.mem_append_left _ (List.mem_append_right _ (hproc.2 hdry).2)

/-- C9 as stated fails: `os.Stat` fails on every matched path and `Exec`
returns no error. -/
theorem Exec_swallows_stat_error :
    (demoPlugin.Exec statFailsWorld).2 = none ∧
      (⟨.stat (bytes "build/app.js"), some "no such file or directory"⟩ : Entry) ∈
        (demoPlugin.Exec statFailsWorld).1 := by
  decide

end DroneGcs
